import Mathlib

/-!
Verification of the core numeric pipeline of the "turev" derivative grapher.
The JavaScript sources (src/script.js and the App variant in src/unnamed/part_000)
are embedded shallowly: JS doubles are idealised as exact rationals `ℚ`, the JS
value `NaN` (and `null`) is modelled by `Option ℚ` (`none` = NaN/null), and the
raw result of a `mathjs` evaluation — which may also be `±Infinity` or a thrown
exception — is modelled by the inductive type `Val` below.
-/

namespace Turev

/-! ### JS numeric values as seen by the compileExpression wrapper

`math.parse(src).compile().evaluate({x})` can return a finite number, `±Infinity`,
`NaN`, or throw.  `Val` enumerates these outcomes. -/

inductive Val where
  | fin (q : ℚ)
  | inf
  | ninf
  | nan
  | thrown
deriving DecidableEq

/-- The closure returned by `compileExpression` (script.js lines 32-39):
`try { const v = code.evaluate({x}); return Number.isFinite(v) ? v : NaN; } catch { return NaN; }`.
`rawEval` abstracts `code.evaluate({x})` for the compiled expression. -/
def compiledWrapper (rawEval : ℚ → Val) (x : ℚ) : Val :=
  match rawEval x with
  | .fin q => .fin q
  | _ => .nan

/-- A sequence of calls to the compiled closure.  The closure captures only the
immutable compiled `code` object and `evaluate({x})` allocates a fresh scope per
call, so the JS closure threads no mutable state between calls; a call sequence
is therefore a pointwise map. -/
def callTrace (rawEval : ℚ → Val) (xs : List ℚ) : List Val :=
  xs.map (compiledWrapper rawEval)

/-! ### Derivative provider (compileDerivative, script.js lines 46-71)

String parsing and the mathjs symbolic-derivative attempt are external library
calls; they are abstracted as `Option`-valued parameters (`none` = the attempt
threw / the expression did not compile). -/

/-- The numeric central-difference fallback closure (script.js lines 63-69):
`h = 1e-5 * Math.max(1, Math.abs(x)); d = (f(x+h) - f(x-h)) / (2*h);
return Number.isFinite(d) ? d : NaN;`.  If either sample is NaN the difference
is NaN. -/
def numericDerivative (f : ℚ → Option ℚ) (x : ℚ) : Option ℚ :=
  let h : ℚ := (1 / 100000) * Max.max 1 |x|
  match f (x + h), f (x - h) with
  | some y1, some y2 => some ((y1 - y2) / (2 * h))
  | _, _ => none

/-- The function `compileDerivative` after expression normalisation: `symb` is the result of
the symbolic attempt `math.derivative(src, "x")` (wrapped like §4.1), `base` the
result of `compileExpression(src)`.  If the symbolic attempt throws, fall back
to the central difference over the base compilation; if that also failed,
return `null`. -/
def compileDerivative (symb base : Option (ℚ → Option ℚ)) : Option (ℚ → Option ℚ) :=
  match symb with
  | some d => some d
  | none =>
    match base with
    | some f => some (fun x => numericDerivative f x)
    | none => none

/-! ### Coordinate mapper (script.js lines 73-94) -/

def worldToScreen (x y W H xMin xMax yMin yMax : ℚ) : ℚ × ℚ :=
  (((x - xMin) / (xMax - xMin)) * W, H - ((y - yMin) / (yMax - yMin)) * H)

def screenToWorld (sx sy W H xMin xMax yMin yMax : ℚ) : ℚ × ℚ :=
  (xMin + (sx / W) * (xMax - xMin), yMin + ((H - sy) / H) * (yMax - yMin))

/-! ### Sampling and range estimation (script.js lines 9-12 and 155-174) -/

/-- JS `linspace(a, b, n)`: `step = (b-a)/Math.max(1, n-1)`,
values `a + i*step` for `i = 0..n-1`.  (For `n = 0`, JS computes
`Math.max(1, -1) = 1` and ℕ subtraction gives `Max.max 1 0 = 1` — same step.) -/
def linspace (a b : ℚ) (n : ℕ) : List ℚ :=
  let step := (b - a) / ((Max.max 1 (n - 1) : ℕ) : ℚ)
  (List.range n).map (fun i : ℕ => a + (i : ℚ) * step)

/-- Running min/max over the finite outputs of `f` on the sample list
(script.js lines 164-169).  The JS accumulators start at `±Infinity`; the state
`none` models "no finite sample seen yet", in which case the final
`Number.isFinite` checks on both accumulators fail. -/
def rangeFold (f : ℚ → Option ℚ) (acc : Option (ℚ × ℚ)) : List ℚ → Option (ℚ × ℚ)
  | [] => acc
  | x :: xs =>
    match f x with
    | none => rangeFold f acc xs
    | some y =>
      match acc with
      | none => rangeFold f (some (y, y)) xs
      | some (a, b) => rangeFold f (some (Min.min a y, Max.max b y)) xs

/-- The vertical-range estimation effect (script.js lines 163-173): sample,
degenerate to `[-1,1]` when no finite sample exists, widen a zero-width range
by `±1`, then pad both ends by `0.1 * span + 1e-9`.  The caller passes
`Math.min(samples, 400)` as `n`. -/
def estimateRange (f : ℚ → Option ℚ) (xMin xMax : ℚ) (n : ℕ) : ℚ × ℚ :=
  let base :=
    match rangeFold f none (linspace xMin xMax n) with
    | none => ((-1 : ℚ), (1 : ℚ))
    | some (a, b) => if a = b then (a - 1, b + 1) else (a, b)
  let pad := (base.2 - base.1) * (1 / 10) + 1 / 1000000000
  (base.1 - pad, base.2 + pad)

/-! ### Axis ticks (niceTicks, script.js lines 83-94)

`Math.floor(Math.log10 q)` for a positive rational is embedded as `flog10`, a
kernel-computable search for the decade of `q`; the fuel 400 bounds the number
of decimal digits and covers every value representable as a JS double (whose
decimal exponent lies within ±309). -/

/-- Largest `k` with `10^k ≤ r`, for `r ≥ 1` (fuel-bounded repeated division). -/
def nlog10 : ℕ → ℚ → ℕ
  | 0, _ => 0
  | fuel + 1, r => if r < 10 then 0 else nlog10 fuel (r / 10) + 1

/-- Smallest `k` with `r ≤ 10^k`, for `r ≥ 1` (fuel-bounded repeated division). -/
def nclog10 : ℕ → ℚ → ℕ
  | 0, _ => 0
  | fuel + 1, r => if r ≤ 1 then 0 else nclog10 fuel (r / 10) + 1

/-- Embeds `Math.floor(Math.log10 q)` for positive `q`: the unique `k` with
`10^k ≤ q < 10^(k+1)`. -/
def flog10 (q : ℚ) : ℤ :=
  if 1 ≤ q then (nlog10 400 q : ℤ) else -(nclog10 400 q⁻¹ : ℤ)

/-- JS `+v.toFixed(12)`: round to 12 decimal places (JS `toFixed` rounds half away
from zero; for the nonnegative values at stake this is `round` = half-up). -/
def toFixed12 (q : ℚ) : ℚ :=
  ((round (q * 1000000000000) : ℤ) : ℚ) / 1000000000000

/-- JS `const span = max - min || 1` — a zero span is replaced by 1. -/
def tickSpan (mn mx : ℚ) : ℚ :=
  if mx - mn = 0 then 1 else mx - mn

/-- The step selection of `niceTicks` (target = 8): `step0 = span/target`,
`pow10 = 10^floor(log10 step0)`, snap the mantissa to 5 / 2 / 1, rescale.
When `step0 ≤ 0` (possible only for `min > max`), JS computes
`Math.log10(step0) = NaN`, and the NaN propagates through `pow10` and `step`;
this is modelled by `none`. -/
def tickStep (mn mx : ℚ) : Option ℚ :=
  let step0 := tickSpan mn mx / 8
  if 0 < step0 then
    let pow10 : ℚ := 10 ^ flog10 step0
    let s := step0 / pow10
    let s1 : ℚ := if 5 ≤ s then 5 else if 2 ≤ s then 2 else 1
    some (s1 * pow10)
  else none

/-- JS `niceTicks(min, max)` (script.js lines 83-94).  With a NaN step (`none`),
`start = Math.ceil(min/step)*step` is NaN and the loop guard
`NaN <= max + 1e-12` is false, so the loop body never runs and the result is
`[]`.  With a positive rational step, the loop `for (v = start; v <= max +
1e-12; v += step)` visits exactly `v = start + i*step` for
`i = 0, …, ⌊(max + 1e-12 - start)/step⌋` (exact rational addition), pushing
`+v.toFixed(12)` each time. -/
def niceTicks (mn mx : ℚ) : List ℚ :=
  match tickStep mn mx with
  | none => []
  | some step =>
    let start := (⌈mn / step⌉ : ℚ) * step
    let bound := mx + 1 / 1000000000000
    if start ≤ bound then
      (List.range (⌊(bound - start) / step⌋.toNat + 1)).map
        (fun i : ℕ => toFixed12 (start + (i : ℚ) * step))
    else []

/-! ### Discontinuity-aware curve renderer (drawCurve, part_000 lines 218-267)

The canvas path calls `moveTo`/`lineTo` partition the drawn samples into
subpaths (segments); the segmentation decision uses the world-space `y` values
(the jump test runs before `worldToScreen`), so segments are recorded here as
lists of world-coordinate sample points — applying the per-point coordinate map
does not change which samples share a segment. -/

def JUMP_ABS : ℚ := 3 / 4
def JUMP_REL : ℚ := 2 / 5

/-- Loop state of `drawCurve`: completed subpaths, the current open subpath,
the `started` flag and `lastY` (which survives non-finite samples, as in the
source, where only `started` is reset). -/
structure CState where
  segs : List (List (ℚ × ℚ))
  cur : List (ℚ × ℚ)
  started : Bool
  lastY : Option ℚ

/-- Close the current subpath: canvas subpaths with no points do not exist. -/
def closeSeg (segs : List (List (ℚ × ℚ))) (cur : List (ℚ × ℚ)) : List (List (ℚ × ℚ)) :=
  if cur = [] then segs else segs ++ [cur]

/-- The dual-threshold jump test of `drawCurve` (part_000 lines 245-254):
fires only when `started`, `lastY` is finite, and both
`absJump > JUMP_ABS` and `relJump > JUMP_REL` hold. -/
def isJump (started : Bool) (lastY : Option ℚ) (y : ℚ) : Bool :=
  started &&
    match lastY with
    | some ly =>
      decide (JUMP_ABS < |y - ly|) &&
      decide (JUMP_REL < |y - ly| / Max.max (1 / 1000000000) (Max.max |y| |ly|))
    | none => false

/-- One iteration of the `drawCurve` sample loop: a non-finite sample breaks
the path (keeping `lastY`); a finite sample first runs the jump test (ending
the current segment and starting a new one at this sample on a jump), then
`moveTo`s or `lineTo`s the point. -/
def curveStep (fn : ℚ → Option ℚ) (st : CState) (x : ℚ) : CState :=
  match fn x with
  | none => { segs := closeSeg st.segs st.cur, cur := [], started := false, lastY := st.lastY }
  | some y =>
    if isJump st.started st.lastY y then
      { segs := closeSeg st.segs st.cur, cur := [(x, y)], started := true, lastY := some y }
    else if st.started then
      { segs := st.segs, cur := st.cur ++ [(x, y)], started := true, lastY := some y }
    else
      { segs := st.segs, cur := [(x, y)], started := true, lastY := some y }

/-- Runs `drawCurve(fun, ...)` over the sample grid: the resulting list of
disjoint polyline segments (the final `stroke` flushes the open subpath). -/
def drawCurveSegments (fn : ℚ → Option ℚ) (xMin xMax : ℚ) (n : ℕ) : List (List (ℚ × ℚ)) :=
  let final := (linspace xMin xMax n).foldl (curveStep fn) ⟨[], [], false, none⟩
  closeSeg final.segs final.cur

/-- The value of the compiled expression `x<0?-1:1` at `x` (mathjs ternary,
always finite). -/
def stepVal (x : ℚ) : ℚ := if x < 0 then -1 else 1

/-- The compiled function for `x<0?-1:1`: total, finite everywhere. -/
def stepFun (x : ℚ) : Option ℚ := some (stepVal x)

/-- All sample points recorded in a renderer state. -/
def allPts (st : CState) : List (ℚ × ℚ) := st.segs.flatten ++ st.cur

/-- A well-formed step-function segment: every point is a grid sample of the
step function, and the segment is `y`-constant. -/
def SegOK (s : List (ℚ × ℚ)) : Prop :=
  (∀ p ∈ s, p.2 = stepVal p.1) ∧ ∀ p ∈ s, ∀ q ∈ s, p.2 = q.2

/-- The current subpath is empty whenever `started` is false. -/
def CurNil (st : CState) : Prop := st.started = false → st.cur = []

/-- Renderer invariant for the step function: all closed segments and the open
one are well formed, and when a segment is open its `lastY` is the common `y`
of its points. -/
def CInv (st : CState) : Prop :=
  (∀ s ∈ st.segs, SegOK s) ∧ SegOK st.cur ∧
  (st.started = true → st.cur ≠ [] ∧ ∃ ly, st.lastY = some ly ∧ ∀ p ∈ st.cur, p.2 = ly) ∧
  CurNil st

/-! ### Derivative curve with holes and tangent (part_000 lines 269-383)

`drawDerivativeWithHoles` walks the interior samples; whether the hole-marker
pair is emitted at a sample depends only on `f`, `df` and the sample (never on
the `started` segment state), so the emitted markers are collected per sample
(`holeAt`) and concatenated in loop order (`holeMarkers`). -/

def CONT_ABS : ℚ := 3 / 5
def CONT_REL : ℚ := 7 / 20
def SLOPE_ABS : ℚ := 3 / 5
def SLOPE_REL : ℚ := 7 / 20

/-- The hole markers drawn at one interior sample `x` of
`drawDerivativeWithHoles` (part_000 lines 330-377): nothing when `df x` is
NaN or the continuity (jump) test fires (the source checks
`!isFinite(df x) || jumpHere` after computing `jumpHere`; the order of the two
checks does not affect the emitted markers); otherwise, when the one-sided
difference quotients of `f` disagree beyond both corner thresholds, a hole is
drawn at `left` and at `right` (each skipped if non-finite, which in NaN
arithmetic happens exactly when `f x` is NaN — and then the corner comparisons
are already false). -/
def holeAt (f df : ℚ → Option ℚ) (h x : ℚ) : List (ℚ × ℚ) :=
  match df x with
  | none => []
  | some _ =>
    match f (x - h), f (x + h) with
    | some ym, some yp =>
      if CONT_ABS < |yp - ym| ∧
          CONT_REL < |yp - ym| / Max.max (1 / 1000000000) (Max.max |yp| |ym|) then
        []
      else
        match f x with
        | none => []
        | some y0 =>
          if SLOPE_ABS < |(y0 - ym) / h - (yp - y0) / h| ∧
              SLOPE_REL < |(y0 - ym) / h - (yp - y0) / h| /
                Max.max (1 / 1000000000) (Max.max |(y0 - ym) / h| |(yp - y0) / h|) then
            [(x, (y0 - ym) / h), (x, (yp - y0) / h)]
          else []
    | _, _ => []

/-- All hole markers of one `drawDerivativeWithHoles` pass: the loop runs over
interior indices `i = 1 .. len-2` of `linspace(xMin, xMax, min(samples, 500))`,
with half-step `h = max(1e-6, H/2)`, `H = (xMax - xMin)/(len - 1)`. -/
def holeMarkers (f df : ℚ → Option ℚ) (xMin xMax : ℚ) (n : ℕ) : List (ℚ × ℚ) :=
  let len := Min.min n 500
  let step := (xMax - xMin) / ((Max.max 1 (len - 1) : ℕ) : ℚ)
  let H := (xMax - xMin) / ((len : ℚ) - 1)
  let h := Max.max (1 / 1000000) (H / 2)
  (List.range' 1 (len - 2)).flatMap (fun i : ℕ => holeAt f df h (xMin + (i : ℚ) * step))

def clampQ (v a b : ℚ) : ℚ := Max.max a (Min.min b v)

/-- Embeds `drawTangentAt` (part_000 lines 278-309): `anchor` is the resolved anchor
x-candidate (`none` when hover is null or the locked `x₀` text evaluates to
NaN); with the tangent enabled, the anchor is clamped into the domain and the
tangent (anchor, `f`, slope `df`) is drawn only when both `f` and `df` are
finite there. -/
def drawTangentAt (showT : Bool) (f df : ℚ → Option ℚ) (xMin xMax : ℚ)
    (anchor : Option ℚ) : Option (ℚ × ℚ × ℚ) :=
  if showT then
    match anchor with
    | none => none
    | some a =>
      let x := clampQ a xMin xMax
      match f x, df x with
      | some y, some m => some (x, y, m)
      | _, _ => none
  else none

/-- The compiled `abs(x)`: total and finite everywhere. -/
def absQ (x : ℚ) : Option ℚ := some |x|

/-- The compiled symbolic mathjs derivative of `abs(x)` — a sign-like
expression (`x/abs(x)` up to mathjs simplification): `±1` away from zero, and
at zero the evaluation `0/0` is NaN.  The repository's own self-test
("abs kink — derivative undefined at 0", script.js lines 105 and 125-128)
pins `df(0)` as non-finite. -/
def dfAbs (x : ℚ) : Option ℚ :=
  if x = 0 then none else some (if x < 0 then -1 else 1)

/-! ### Theorems for claims C1, C9, C4, C5 -/

/-- C1: for every expression accepted by `compileExpression` (any raw evaluator
the mathjs compile step can produce) and every finite argument `x`, the returned
callable yields a finite number or NaN; evaluation-time failures (`thrown`) and
non-finite results (`±Infinity`, NaN) are all mapped to NaN, and no exception
propagates. -/
theorem compiled_fin_or_nan (rawEval : ℚ → Val) (x : ℚ) :
    (∃ q : ℚ, compiledWrapper rawEval x = .fin q) ∨ compiledWrapper rawEval x = .nan := by
  unfold compiledWrapper
  cases rawEval x with
  | fin q => exact Or.inl ⟨q, rfl⟩
  | inf => exact Or.inr rfl
  | ninf => exact Or.inr rfl
  | nan => exact Or.inr rfl
  | thrown => exact Or.inr rfl

/-- C9: the compiled callable is deterministic and stateless: the result of the
final call of any call sequence is the pure function `compiledWrapper rawEval`
applied to the final argument, independent of the preceding calls — so two
evaluations at the same `x`, after arbitrary different histories, agree. -/
theorem compiled_stateless (rawEval : ℚ → Val) (pre₁ pre₂ : List ℚ) (x : ℚ) :
    (callTrace rawEval (pre₁ ++ [x])).getLast? = some (compiledWrapper rawEval x) ∧
    (callTrace rawEval (pre₁ ++ [x])).getLast? = (callTrace rawEval (pre₂ ++ [x])).getLast? := by
  have h : ∀ pre : List ℚ,
      (callTrace rawEval (pre ++ [x])).getLast? = some (compiledWrapper rawEval x) := by
    intro pre
    unfold callTrace
    rw [List.map_append]
    simp
  exact ⟨h pre₁, (h pre₁).trans (h pre₂).symm⟩

/-- C4: when the symbolic derivative attempt fails but the original expression
compiles to `f`, `compileDerivative` returns exactly the central-difference
function with step `h = 1e-5 * max(1, |x|)` (NaN-propagating); when the base
compilation also fails it returns `null`. -/
theorem compileDerivative_fallback (base : Option (ℚ → Option ℚ)) :
    (∀ f, base = some f →
      compileDerivative none base = some (fun x => numericDerivative f x) ∧
      ∀ x y1 y2,
        f (x + (1 / 100000) * Max.max 1 |x|) = some y1 →
        f (x - (1 / 100000) * Max.max 1 |x|) = some y2 →
        numericDerivative f x = some ((y1 - y2) / (2 * ((1 / 100000) * Max.max 1 |x|)))) ∧
    (base = none → compileDerivative none base = none) := by
  constructor
  · intro f hf
    subst hf
    refine ⟨rfl, ?_⟩
    intro x y1 y2 h1 h2
    simp only [numericDerivative]
    rw [h1, h2]
  · intro hb
    subst hb
    rfl

/-- C4 witness: the fallback at `f(x) = x^2` gives exactly 6 at `x = 3`
(the central difference of a quadratic is exact), and a failed base
compilation yields `null`. -/
theorem compileDerivative_fallback_witness :
    compileDerivative none (some (fun q => some (q * q))) =
      some (fun x => numericDerivative (fun q => some (q * q)) x) ∧
    numericDerivative (fun q => some (q * q)) 3 = some 6 ∧
    compileDerivative none (none : Option (ℚ → Option ℚ)) = none := by
  have h := compileDerivative_fallback (some (fun q : ℚ => some (q * q)))
  refine ⟨(h.1 _ rfl).1, ?_, (compileDerivative_fallback none).2 rfl⟩
  have h3 := (h.1 _ rfl).2 3 ((3 + 3 / 100000) * (3 + 3 / 100000))
    ((3 - 3 / 100000) * (3 - 3 / 100000)) (by norm_num) (by norm_num)
  rw [h3]
  norm_num

/-- C5: `worldToScreen` and `screenToWorld` are exact mutual inverses for any
point and any non-degenerate viewport (`W > 0`, `H > 0`, `xMin < xMax`,
`yMin < yMax`), in both composition orders. -/
theorem world_screen_roundtrip (x y sx sy W H xMin xMax yMin yMax : ℚ)
    (hW : 0 < W) (hH : 0 < H) (hx : xMin < xMax) (hy : yMin < yMax) :
    screenToWorld (worldToScreen x y W H xMin xMax yMin yMax).1
      (worldToScreen x y W H xMin xMax yMin yMax).2 W H xMin xMax yMin yMax = (x, y) ∧
    worldToScreen (screenToWorld sx sy W H xMin xMax yMin yMax).1
      (screenToWorld sx sy W H xMin xMax yMin yMax).2 W H xMin xMax yMin yMax = (sx, sy) := by
  have hW' : W ≠ 0 := ne_of_gt hW
  have hH' : H ≠ 0 := ne_of_gt hH
  have hx' : xMax - xMin ≠ 0 := sub_ne_zero.mpr (ne_of_gt hx)
  have hy' : yMax - yMin ≠ 0 := sub_ne_zero.mpr (ne_of_gt hy)
  unfold worldToScreen screenToWorld
  constructor
  · apply Prod.ext <;> field_simp <;> ring
  · apply Prod.ext <;> field_simp <;> ring

/-- C5 witness: round trip at a concrete point and viewport. -/
theorem world_screen_roundtrip_witness :
    screenToWorld (worldToScreen 2 3 640 480 (-10) 10 (-5) 5).1
      (worldToScreen 2 3 640 480 (-10) 10 (-5) 5).2 640 480 (-10) 10 (-5) 5 = (2, 3) ∧
    worldToScreen (screenToWorld 100 200 640 480 (-10) 10 (-5) 5).1
      (screenToWorld 100 200 640 480 (-10) 10 (-5) 5).2 640 480 (-10) 10 (-5) 5 = (100, 200) := by
  exact world_screen_roundtrip 2 3 100 200 640 480 (-10) 10 (-5) 5
    (by norm_num) (by norm_num) (by norm_num) (by norm_num)

/-! ### Range estimator lemmas and claims C6, C7 -/

theorem rangeFold_all_none (f : ℚ → Option ℚ) (xs : List ℚ) (acc : Option (ℚ × ℚ))
    (h : ∀ x ∈ xs, f x = none) : rangeFold f acc xs = acc := by
  induction xs generalizing acc with
  | nil => rfl
  | cons x xs ih =>
    simp only [rangeFold, h x (List.mem_cons_self x xs)]
    exact ih acc fun y hy => h y (List.mem_cons_of_mem x hy)

theorem rangeFold_const_acc (c : ℚ) (xs : List ℚ) :
    rangeFold (fun _ => some c) (some (c, c)) xs = some (c, c) := by
  induction xs with
  | nil => rfl
  | cons x xs ih => simpa [rangeFold] using ih

theorem rangeFold_const (c : ℚ) (x : ℚ) (xs : List ℚ) :
    rangeFold (fun _ => some c) none (x :: xs) = some (c, c) := by
  simpa [rangeFold] using rangeFold_const_acc c xs

/-- C6 counterexample: a compiled function with no finite output anywhere
(e.g. `sqrt(-1-x^2)`, every evaluation NaN) over domain `[-10, 10]` with the
400-sample cap: the estimator does NOT return `[-1, 1]` — the degenerate base
range `[-1, 1]` is still padded by `0.1 * span + 1e-9`. -/
theorem estimateRange_noFinite_counterexample :
    estimateRange (fun _ => none) (-10) 10 400 ≠ (-1, 1) ∧
    estimateRange (fun _ => none) (-10) 10 400 =
      (-(1200000001 / 1000000000), 1200000001 / 1000000000) := by
  have hfold : rangeFold (fun _ : ℚ => none) none (linspace (-10) 10 400) = none :=
    rangeFold_all_none _ _ _ (fun x _ => rfl)
  constructor
  · intro hEq
    rw [estimateRange, hfold] at hEq
    have := congrArg Prod.fst hEq
    norm_num at this
  · rw [estimateRange, hfold]
    norm_num

/-- C6 amended: if the compiled function yields no finite output at any sample
point, the estimator returns the degenerate base range `[-1, 1]` padded by
`0.1 * span + 1e-9`, i.e. exactly `[-1.200000001, 1.200000001]`. -/
theorem estimateRange_noFinite (f : ℚ → Option ℚ) (xMin xMax : ℚ) (n : ℕ)
    (h : ∀ x ∈ linspace xMin xMax n, f x = none) :
    estimateRange f xMin xMax n =
      (-(1200000001 / 1000000000), 1200000001 / 1000000000) := by
  rw [estimateRange, rangeFold_all_none f _ none h]
  norm_num

/-- C6 amended witness: concrete all-NaN function on `[0, 1]` with 3 samples. -/
theorem estimateRange_noFinite_witness :
    estimateRange (fun _ => none) 0 1 3 =
      (-(1200000001 / 1000000000), 1200000001 / 1000000000) :=
  estimateRange_noFinite (fun _ => none) 0 1 3 (fun x _ => rfl)

/-- C7: for the constant function `f(x) = 5` and any domain sampled at least
once, the range estimator first widens the zero-width range `[5,5]` to `[4,6]`
and then pads by `0.1 * span + 1e-9`, returning a range that contains
`[4, 6]`. -/
theorem estimateRange_const5 (xMin xMax : ℚ) (n : ℕ) (hn : 1 ≤ n) :
    estimateRange (fun _ => some 5) xMin xMax n =
      (19 / 5 - 1 / 1000000000, 31 / 5 + 1 / 1000000000) ∧
    (estimateRange (fun _ => some 5) xMin xMax n).1 ≤ 4 ∧
    6 ≤ (estimateRange (fun _ => some 5) xMin xMax n).2 := by
  obtain ⟨m, rfl⟩ : ∃ m, n = m + 1 := ⟨n - 1, by omega⟩
  have hfold : rangeFold (fun _ : ℚ => some 5) none (linspace xMin xMax (m + 1)) = some (5, 5) := by
    simp only [linspace, List.range_succ_eq_map, List.map_cons]
    exact rangeFold_const 5 _ _
  have hmain : estimateRange (fun _ => some 5) xMin xMax (m + 1) =
      (19 / 5 - 1 / 1000000000, 31 / 5 + 1 / 1000000000) := by
    rw [estimateRange, hfold]
    norm_num
  refine ⟨hmain, ?_, ?_⟩ <;> rw [hmain] <;> norm_num

/-- C7 witness: constant 5 on the default domain `[-10, 10]` with one sample. -/
theorem estimateRange_const5_witness :
    estimateRange (fun _ => some 5) (-10) 10 1 =
      (19 / 5 - 1 / 1000000000, 31 / 5 + 1 / 1000000000) ∧
    (estimateRange (fun _ => some 5) (-10) 10 1).1 ≤ 4 ∧
    6 ≤ (estimateRange (fun _ => some 5) (-10) 10 1).2 :=
  estimateRange_const5 (-10) 10 1 (by norm_num)

/-! ### niceTicks lemmas and claims C10, C8 -/

theorem toFixed12_err (v : ℚ) : |toFixed12 v - v| ≤ 1 / 2000000000000 := by
  have h := abs_sub_round (v * 1000000000000)
  unfold toFixed12
  have : ((round (v * 1000000000000) : ℤ) : ℚ) / 1000000000000 - v =
      (((round (v * 1000000000000) : ℤ) : ℚ) - v * 1000000000000) / 1000000000000 := by
    ring
  rw [this, abs_div]
  rw [show |(1000000000000 : ℚ)| = 1000000000000 by norm_num]
  rw [div_le_iff₀ (by norm_num)]
  calc |((round (v * 1000000000000) : ℤ) : ℚ) - v * 1000000000000| ≤ 1 / 2 := by
        rw [abs_sub_comm]; exact h
    _ ≤ 1 / 2000000000000 * 1000000000000 := by norm_num

theorem toFixed12_mono {a b : ℚ} (hab : a ≤ b) : toFixed12 a ≤ toFixed12 b := by
  unfold toFixed12
  have h : round (a * 1000000000000) ≤ round (b * 1000000000000) := by
    rw [round_eq, round_eq]
    exact Int.floor_le_floor (by nlinarith)
  have hq : ((round (a * 1000000000000) : ℤ) : ℚ) ≤ ((round (b * 1000000000000) : ℤ) : ℚ) := by
    exact_mod_cast h
  exact (div_le_div_right (by norm_num)).mpr hq

theorem toFixed12_strict {a b : ℚ} (hab : a + 1 / 1000000000000 ≤ b) :
    toFixed12 a < toFixed12 b := by
  unfold toFixed12
  have h : round (a * 1000000000000) + 1 ≤ round (b * 1000000000000) := by
    rw [round_eq, round_eq]
    have h1 : a * 1000000000000 + 1 / 2 + 1 ≤ b * 1000000000000 + 1 / 2 := by nlinarith
    calc ⌊a * 1000000000000 + 1 / 2⌋ + 1 = ⌊a * 1000000000000 + 1 / 2 + 1⌋ := by
          rw [Int.floor_add_one]
      _ ≤ ⌊b * 1000000000000 + 1 / 2⌋ := Int.floor_le_floor h1
  have hq : ((round (a * 1000000000000) : ℤ) : ℚ) + 1 ≤ ((round (b * 1000000000000) : ℤ) : ℚ) := by
    exact_mod_cast h
  exact (div_lt_div_right (by norm_num)).mpr (by linarith)

/-- C10: for `min > max` the negative span survives the `|| 1` guard, the step
computation goes through `Math.log10` of a negative number and becomes NaN, the
tick loop guard is false at once, and `niceTicks` returns `[]` without
raising. -/
theorem niceTicks_minGtMax (mn mx : ℚ) (h : mx < mn) :
    tickStep mn mx = none ∧ niceTicks mn mx = [] := by
  have hne : mx - mn ≠ 0 := by intro hc; rw [sub_eq_zero] at hc; subst hc; exact lt_irrefl _ h
  have hspan : tickSpan mn mx = mx - mn := if_neg hne
  have hneg : ¬ (0 < tickSpan mn mx / 8) := by
    rw [hspan]
    push_neg
    exact le_of_lt (div_neg_of_neg_of_pos (by linarith) (by norm_num))
  have hstep : tickStep mn mx = none := by
    simp only [tickStep]
    rw [if_neg hneg]
  exact ⟨hstep, by simp only [niceTicks, hstep]⟩

/-- C10 witness: `niceTicks(1, 0)` is empty. -/
theorem niceTicks_minGtMax_witness :
    (0 : ℚ) < 1 ∧ tickStep 1 0 = none ∧ niceTicks 1 0 = [] :=
  ⟨by norm_num, (niceTicks_minGtMax 1 0 (by norm_num)).1,
   (niceTicks_minGtMax 1 0 (by norm_num)).2⟩

theorem tickStep_some (mn mx : ℚ) (h : mn ≤ mx) :
    ∃ st, tickStep mn mx = some st ∧ 0 < st ∧
      ∃ k : ℤ, st = 10 ^ k ∨ st = 2 * 10 ^ k ∨ st = 5 * 10 ^ k := by
  have hspan : 0 < tickSpan mn mx := by
    unfold tickSpan
    by_cases hc : mx - mn = 0
    · rw [if_pos hc]; norm_num
    · rw [if_neg hc]
      exact lt_of_le_of_ne (sub_nonneg.mpr h) (Ne.symm hc)
  have hstep0 : 0 < tickSpan mn mx / 8 := by positivity
  have hppos : (0 : ℚ) < 10 ^ flog10 (tickSpan mn mx / 8) := by positivity
  simp only [tickStep]
  rw [if_pos hstep0]
  by_cases h5 : (5 : ℚ) ≤ tickSpan mn mx / 8 / 10 ^ flog10 (tickSpan mn mx / 8)
  · rw [if_pos h5]
    exact ⟨_, rfl, by positivity, flog10 (tickSpan mn mx / 8), Or.inr (Or.inr rfl)⟩
  · rw [if_neg h5]
    by_cases h2 : (2 : ℚ) ≤ tickSpan mn mx / 8 / 10 ^ flog10 (tickSpan mn mx / 8)
    · rw [if_pos h2]
      exact ⟨_, rfl, by positivity, flog10 (tickSpan mn mx / 8), Or.inr (Or.inl rfl)⟩
    · rw [if_neg h2]
      exact ⟨_, rfl, by positivity, flog10 (tickSpan mn mx / 8), Or.inl (one_mul _)⟩

theorem niceTicks_eq (mn mx st : ℚ) (hst : tickStep mn mx = some st) :
    niceTicks mn mx =
      (if (⌈mn / st⌉ : ℚ) * st ≤ mx + 1 / 1000000000000 then
        (List.range (⌊(mx + 1 / 1000000000000 - (⌈mn / st⌉ : ℚ) * st) / st⌋.toNat + 1)).map
          (fun i : ℕ => toFixed12 ((⌈mn / st⌉ : ℚ) * st + (i : ℚ) * st))
      else []) := by
  simp only [niceTicks, hst]

theorem niceTicks_bounds (mn mx st : ℚ) (hst : tickStep mn mx = some st) (hpos : 0 < st) :
    ∀ t ∈ niceTicks mn mx,
      mn - 1 / 2000000000000 ≤ t ∧ t ≤ mx + 3 / 2000000000000 := by
  intro t ht
  rw [niceTicks_eq mn mx st hst] at ht
  by_cases hsb : (⌈mn / st⌉ : ℚ) * st ≤ mx + 1 / 1000000000000
  case neg => rw [if_neg hsb] at ht; simp at ht
  rw [if_pos hsb] at ht
  obtain ⟨i, hi, rfl⟩ := List.mem_map.mp ht
  rw [List.mem_range] at hi
  have hv1 : mn ≤ (⌈mn / st⌉ : ℚ) * st + (i : ℚ) * st := by
    have h1 : mn / st ≤ (⌈mn / st⌉ : ℚ) := Int.le_ceil _
    have h2 : mn / st * st ≤ (⌈mn / st⌉ : ℚ) * st :=
      mul_le_mul_of_nonneg_right h1 (le_of_lt hpos)
    rw [div_mul_cancel₀ _ (ne_of_gt hpos)] at h2
    have h3 : (0 : ℚ) ≤ (i : ℚ) * st := by positivity
    linarith
  have hv2 : (⌈mn / st⌉ : ℚ) * st + (i : ℚ) * st ≤ mx + 1 / 1000000000000 := by
    have hfl0 : (0 : ℤ) ≤ ⌊(mx + 1 / 1000000000000 - (⌈mn / st⌉ : ℚ) * st) / st⌋ :=
      Int.floor_nonneg.mpr (div_nonneg (by linarith) (le_of_lt hpos))
    have hile : (i : ℤ) ≤ ⌊(mx + 1 / 1000000000000 - (⌈mn / st⌉ : ℚ) * st) / st⌋ := by
      have h4 : i ≤ ⌊(mx + 1 / 1000000000000 - (⌈mn / st⌉ : ℚ) * st) / st⌋.toNat :=
        Nat.lt_succ_iff.mp hi
      have h5 : (i : ℤ) ≤
          (⌊(mx + 1 / 1000000000000 - (⌈mn / st⌉ : ℚ) * st) / st⌋.toNat : ℤ) := by
        exact_mod_cast h4
      rwa [Int.toNat_of_nonneg hfl0] at h5
    have h6 : (i : ℚ) ≤ (mx + 1 / 1000000000000 - (⌈mn / st⌉ : ℚ) * st) / st := by
      exact_mod_cast Int.le_floor.mp hile
    have h7 : (i : ℚ) * st ≤ mx + 1 / 1000000000000 - (⌈mn / st⌉ : ℚ) * st :=
      (le_div_iff₀ hpos).mp h6
    linarith
  have herr := abs_le.mp (toFixed12_err ((⌈mn / st⌉ : ℚ) * st + (i : ℚ) * st))
  exact ⟨by linarith [herr.1], by linarith [herr.2]⟩

theorem niceTicks_sorted (mn mx st : ℚ) (hst : tickStep mn mx = some st) (hpos : 0 < st) :
    List.Pairwise (· ≤ ·) (niceTicks mn mx) := by
  rw [niceTicks_eq mn mx st hst]
  by_cases hsb : (⌈mn / st⌉ : ℚ) * st ≤ mx + 1 / 1000000000000
  case neg => rw [if_neg hsb]; exact List.Pairwise.nil
  rw [if_pos hsb]
  refine List.Pairwise.map _ ?_ (List.pairwise_lt_range _)
  intro a b hab
  apply toFixed12_mono
  have hc : (a : ℚ) ≤ (b : ℚ) := by exact_mod_cast hab.le
  nlinarith

theorem niceTicks_strict (mn mx st : ℚ) (hst : tickStep mn mx = some st)
    (hpos : 0 < st) (hbig : 1 / 1000000000000 ≤ st) :
    List.Pairwise (· < ·) (niceTicks mn mx) := by
  rw [niceTicks_eq mn mx st hst]
  by_cases hsb : (⌈mn / st⌉ : ℚ) * st ≤ mx + 1 / 1000000000000
  case neg => rw [if_neg hsb]; exact List.Pairwise.nil
  rw [if_pos hsb]
  refine List.Pairwise.map _ ?_ (List.pairwise_lt_range _)
  intro a b hab
  apply toFixed12_strict
  have hc : (a : ℚ) + 1 ≤ (b : ℚ) := by exact_mod_cast hab
  nlinarith

theorem nclog10_succ (f : ℕ) (r : ℚ) :
    nclog10 (f + 1) r = if r ≤ 1 then 0 else nclog10 f (r / 10) + 1 := rfl

/-- C8 counterexample: for `min = 0 ≤ max = 0.7999999999995` the claim "each
tick lies within `[min, max]`" fails: the step is `0.05`, the loop guard allows
`v ≤ max + 1e-12`, and the tick `0.8` exceeds `max`. -/
theorem niceTicks_counterexample :
    (0 : ℚ) ≤ 1599999999999 / 2000000000000 ∧
    ∃ t ∈ niceTicks 0 (1599999999999 / 2000000000000),
      1599999999999 / 2000000000000 < t := by
  have hflog : flog10 (1599999999999 / 16000000000000 : ℚ) = -2 := by
    simp only [flog10]
    rw [if_neg (by norm_num)]
    rw [show ((1599999999999 : ℚ) / 16000000000000)⁻¹ = 16000000000000 / 1599999999999 by
      norm_num]
    rw [show (400 : ℕ) = 399 + 1 from rfl, nclog10_succ, if_neg (by norm_num),
        show (399 : ℕ) = 398 + 1 from rfl, nclog10_succ, if_neg (by norm_num),
        show (398 : ℕ) = 397 + 1 from rfl, nclog10_succ, if_pos (by norm_num)]
    norm_num
  have hspan : tickSpan 0 (1599999999999 / 2000000000000 : ℚ) =
      1599999999999 / 2000000000000 := by
    rw [tickSpan, if_neg (by norm_num)]
    norm_num
  have hstep : tickStep 0 (1599999999999 / 2000000000000 : ℚ) = some (1 / 20) := by
    simp only [tickStep, hspan]
    rw [if_pos (by norm_num)]
    rw [show (1599999999999 / 2000000000000 : ℚ) / 8 = 1599999999999 / 16000000000000 by
      norm_num]
    rw [hflog]
    norm_num
  refine ⟨by norm_num, ?_⟩
  rw [niceTicks_eq 0 _ (1 / 20) hstep]
  rw [if_pos (by norm_num)]
  have hcount :
      ⌊((1599999999999 / 2000000000000 : ℚ) + 1 / 1000000000000 -
          (⌈(0 : ℚ) / (1 / 20)⌉ : ℚ) * (1 / 20)) / (1 / 20)⌋.toNat + 1 = 17 := by
    norm_num [Int.floor_eq_iff]
    rfl
  rw [hcount]
  refine ⟨_, List.mem_map_of_mem _ (List.mem_range.mpr (show 16 < 17 by norm_num)), ?_⟩
  show 1599999999999 / 2000000000000 <
    toFixed12 ((⌈(0 : ℚ) / (1 / 20)⌉ : ℚ) * (1 / 20) + ((16 : ℕ) : ℚ) * (1 / 20))
  have hval : (⌈(0 : ℚ) / (1 / 20)⌉ : ℚ) * (1 / 20) + ((16 : ℕ) : ℚ) * (1 / 20) = 4 / 5 := by
    norm_num
  rw [hval]
  rw [show toFixed12 (4 / 5 : ℚ) = 4 / 5 by
    unfold toFixed12
    rw [round_eq]
    norm_num [Int.floor_eq_iff]]
  norm_num

/-- C8 amended: for `min ≤ max`, `niceTicks` (a pure function, hence
deterministic in `(min, max, target)`) uses a step of the form
`{1,2,5} * 10^k`; a zero span (`min = max`) is replaced by 1 before the
division; the returned ticks are nondecreasing — strictly increasing whenever
the step is at least `1e-12`, the loop's comparison slack — and every tick lies
within `[min - 5e-13, max + 1.5e-12]` (the loop admits raw values up to
`max + 1e-12` and `toFixed(12)` moves a value by at most `5e-13`; ticks may
therefore fall slightly outside `[min, max]` but no further than that). -/
theorem niceTicks_spec (mn mx : ℚ) (h : mn ≤ mx) :
    (∃ st, tickStep mn mx = some st ∧ 0 < st ∧
      ∃ k : ℤ, st = 10 ^ k ∨ st = 2 * 10 ^ k ∨ st = 5 * 10 ^ k) ∧
    tickSpan mn mn = 1 ∧
    List.Pairwise (· ≤ ·) (niceTicks mn mx) ∧
    (∀ t ∈ niceTicks mn mx, mn - 1 / 2000000000000 ≤ t ∧ t ≤ mx + 3 / 2000000000000) ∧
    (∀ st, tickStep mn mx = some st → 1 / 1000000000000 ≤ st →
      List.Pairwise (· < ·) (niceTicks mn mx)) := by
  obtain ⟨st, hst, hpos, hform⟩ := tickStep_some mn mx h
  refine ⟨⟨st, hst, hpos, hform⟩, by simp [tickSpan], niceTicks_sorted mn mx st hst hpos,
    niceTicks_bounds mn mx st hst hpos, ?_⟩
  intro st' hst' hbig
  rw [hst] at hst'
  cases hst'
  exact niceTicks_strict mn mx st hst hpos hbig

/-- C8 amended witness: the default domain `[0, 10]`. -/
theorem niceTicks_spec_witness :
    (0 : ℚ) ≤ 10 ∧
    ((∃ st, tickStep 0 10 = some st ∧ 0 < st ∧
      ∃ k : ℤ, st = 10 ^ k ∨ st = 2 * 10 ^ k ∨ st = 5 * 10 ^ k) ∧
    tickSpan 0 0 = 1 ∧
    List.Pairwise (· ≤ ·) (niceTicks 0 10) ∧
    (∀ t ∈ niceTicks 0 10, 0 - 1 / 2000000000000 ≤ t ∧ t ≤ 10 + 3 / 2000000000000) ∧
    (∀ st, tickStep 0 10 = some st → 1 / 1000000000000 ≤ st →
      List.Pairwise (· < ·) (niceTicks 0 10))) :=
  ⟨by norm_num, niceTicks_spec 0 10 (by norm_num)⟩

/-! ### Curve segmentation lemmas and claim C2 -/

theorem flatten_closeSeg (segs : List (List (ℚ × ℚ))) (cur : List (ℚ × ℚ)) :
    (closeSeg segs cur).flatten = segs.flatten ++ cur := by
  unfold closeSeg
  by_cases hc : cur = []
  · rw [if_pos hc, hc, List.append_nil]
  · rw [if_neg hc, List.flatten_append]
    simp

theorem mem_closeSeg {segs : List (List (ℚ × ℚ))} {cur s : List (ℚ × ℚ)}
    (h : s ∈ closeSeg segs cur) : s ∈ segs ∨ s = cur := by
  unfold closeSeg at h
  by_cases hc : cur = []
  · rw [if_pos hc] at h
    exact Or.inl h
  · rw [if_neg hc] at h
    rcases List.mem_append.mp h with h1 | h1
    · exact Or.inl h1
    · exact Or.inr (List.mem_singleton.mp h1)

theorem curveStep_curNil (fn : ℚ → Option ℚ) (st : CState) (x : ℚ) :
    CurNil (curveStep fn st x) := by
  unfold CurNil
  cases hfx : fn x with
  | none => simp only [curveStep, hfx]; intro _; trivial
  | some y =>
    simp only [curveStep, hfx]
    by_cases hj : isJump st.started st.lastY y = true
    · rw [if_pos hj]; intro h; simp at h
    · rw [if_neg hj]
      by_cases hs : st.started = true
      · rw [if_pos hs]; intro h; simp at h
      · rw [if_neg hs]; intro h; simp at h

theorem curveStep_mono (fn : ℚ → Option ℚ) (st : CState) (x : ℚ) (hcn : CurNil st) :
    ∀ p ∈ allPts st, p ∈ allPts (curveStep fn st x) := by
  intro p hp
  unfold allPts at hp ⊢
  cases hfx : fn x with
  | none =>
    simp only [curveStep, hfx]
    rw [flatten_closeSeg, List.append_nil]
    exact hp
  | some y =>
    simp only [curveStep, hfx]
    by_cases hj : isJump st.started st.lastY y = true
    · rw [if_pos hj]
      rw [flatten_closeSeg]
      exact List.mem_append_left _ hp
    · rw [if_neg hj]
      by_cases hs : st.started = true
      · rw [if_pos hs]
        rw [← List.append_assoc]
        exact List.mem_append_left _ hp
      · rw [if_neg hs]
        have hc : st.cur = [] := hcn (by revert hs; cases st.started <;> simp)
        rw [hc, List.append_nil] at hp
        exact List.mem_append_left _ hp

theorem curveStep_adds (fn : ℚ → Option ℚ) (st : CState) (x : ℚ) (y : ℚ)
    (hy : fn x = some y) : (x, y) ∈ allPts (curveStep fn st x) := by
  unfold allPts
  simp only [curveStep, hy]
  by_cases hj : isJump st.started st.lastY y = true
  · rw [if_pos hj]
    exact List.mem_append_right _ (List.mem_singleton.mpr rfl)
  · rw [if_neg hj]
    by_cases hs : st.started = true
    · rw [if_pos hs]
      exact List.mem_append_right _ (List.mem_append_right _ (List.mem_singleton.mpr rfl))
    · rw [if_neg hs]
      exact List.mem_append_right _ (List.mem_singleton.mpr rfl)

theorem foldl_curveStep_mem (fn : ℚ → Option ℚ) (xs : List ℚ) (st : CState) (hcn : CurNil st) :
    (∀ p ∈ allPts st, p ∈ allPts (xs.foldl (curveStep fn) st)) ∧
    (∀ x ∈ xs, ∀ y, fn x = some y → (x, y) ∈ allPts (xs.foldl (curveStep fn) st)) := by
  induction xs generalizing st with
  | nil => exact ⟨fun p hp => hp, fun x hx => absurd hx (List.not_mem_nil x)⟩
  | cons a as ih =>
    have hcn' : CurNil (curveStep fn st a) := curveStep_curNil fn st a
    constructor
    · intro p hp
      simp only [List.foldl_cons]
      exact (ih _ hcn').1 p (curveStep_mono fn st a hcn p hp)
    · intro x hx y hy
      simp only [List.foldl_cons]
      rcases List.mem_cons.mp hx with h | h
      · subst h
        exact (ih _ hcn').1 _ (curveStep_adds fn st x y hy)
      · exact (ih _ hcn').2 x h y hy

theorem stepVal_cases (x : ℚ) : stepVal x = -1 ∨ stepVal x = 1 := by
  unfold stepVal
  by_cases h : x < 0
  · rw [if_pos h]; exact Or.inl rfl
  · rw [if_neg h]; exact Or.inr rfl

theorem isJump_of_ne {ly y : ℚ} (hly : ly = -1 ∨ ly = 1) (hy : y = -1 ∨ y = 1)
    (hne : y ≠ ly) : isJump true (some ly) y = true := by
  rcases hly with rfl | rfl <;> rcases hy with rfl | rfl
  · exact absurd rfl hne
  · simp only [isJump, Bool.true_and, Bool.and_eq_true, decide_eq_true_eq]
    norm_num [JUMP_ABS, JUMP_REL, max_def]
  · simp only [isJump, Bool.true_and, Bool.and_eq_true, decide_eq_true_eq]
    norm_num [JUMP_ABS, JUMP_REL, max_def]
  · exact absurd rfl hne

theorem curveStep_inv (st : CState) (x : ℚ) (h : CInv st) : CInv (curveStep stepFun st x) := by
  obtain ⟨hsegs, hcur, hopen, hcn⟩ := h
  have hsing : SegOK [(x, stepVal x)] := by
    constructor
    · intro p hp
      rw [List.mem_singleton.mp hp]
    · intro p hp q hq
      rw [List.mem_singleton.mp hp, List.mem_singleton.mp hq]
  simp only [curveStep, stepFun]
  by_cases hj : isJump st.started st.lastY (stepVal x) = true
  · rw [if_pos hj]
    refine ⟨?_, hsing, ?_, ?_⟩
    · intro s hs
      rcases mem_closeSeg hs with h1 | h1
      · exact hsegs s h1
      · rw [h1]; exact hcur
    · intro _
      exact ⟨by simp, stepVal x, rfl, fun p hp => by rw [List.mem_singleton.mp hp]⟩
    · intro hfalse; simp at hfalse
  · rw [if_neg hj]
    by_cases hs : st.started = true
    · rw [if_pos hs]
      obtain ⟨hne, ly, hly, hcconst⟩ := hopen hs
      have hlyval : ly = -1 ∨ ly = 1 := by
        obtain ⟨p, hp⟩ := List.exists_mem_of_ne_nil _ hne
        have e1 : p.2 = stepVal p.1 := hcur.1 p hp
        have e2 : p.2 = ly := hcconst p hp
        have e3 : ly = stepVal p.1 := by rw [← e2, e1]
        rcases stepVal_cases p.1 with hsv | hsv
        · exact Or.inl (e3.trans hsv)
        · exact Or.inr (e3.trans hsv)
      have hyly : stepVal x = ly := by
        by_contra hne2
        apply hj
        rw [hs, hly]
        exact isJump_of_ne hlyval (stepVal_cases x) hne2
      have key : ∀ r ∈ st.cur ++ [(x, stepVal x)], r.2 = ly := by
        intro r hr
        rcases List.mem_append.mp hr with h1 | h1
        · exact hcconst r h1
        · rw [List.mem_singleton.mp h1]; exact hyly
      refine ⟨hsegs, ⟨?_, ?_⟩, ?_, ?_⟩
      · intro p hp
        rcases List.mem_append.mp hp with h1 | h1
        · exact hcur.1 p h1
        · rw [List.mem_singleton.mp h1]
      · intro p hp q hq
        rw [key p hp, key q hq]
      · intro _
        refine ⟨by simp, stepVal x, rfl, fun p hp => ?_⟩
        rw [key p hp, hyly]
      · intro hfalse; simp at hfalse
    · rw [if_neg hs]
      refine ⟨hsegs, hsing, ?_, ?_⟩
      · intro _
        exact ⟨by simp, stepVal x, rfl, fun p hp => by rw [List.mem_singleton.mp hp]⟩
      · intro hfalse; simp at hfalse

theorem foldl_curveStep_inv (xs : List ℚ) (st : CState) (h : CInv st) :
    CInv (xs.foldl (curveStep stepFun) st) := by
  induction xs generalizing st with
  | nil => exact h
  | cons a as ih => exact ih _ (curveStep_inv st a h)

theorem two_mem_le_length {α : Type} {l : List α} {a b : α}
    (ha : a ∈ l) (hb : b ∈ l) (hne : a ≠ b) : 2 ≤ l.length := by
  cases l with
  | nil => cases ha
  | cons x xs =>
    cases xs with
    | nil =>
      rw [List.mem_singleton] at ha hb
      exact absurd (ha.trans hb.symm) hne
    | cons y ys =>
      simp only [List.length_cons]
      omega

theorem linspace_head (a b : ℚ) (n : ℕ) (hn : 1 ≤ n) : a ∈ linspace a b n := by
  unfold linspace
  have h0 : (0 : ℕ) ∈ List.range n := List.mem_range.mpr (by omega)
  refine List.mem_map.mpr ⟨0, h0, ?_⟩
  norm_num

theorem linspace_last (a b : ℚ) (n : ℕ) (hn : 2 ≤ n) : b ∈ linspace a b n := by
  unfold linspace
  have h0 : n - 1 ∈ List.range n := List.mem_range.mpr (by omega)
  refine List.mem_map.mpr ⟨n - 1, h0, ?_⟩
  have hmax : Max.max 1 (n - 1) = n - 1 := max_eq_right (by omega)
  rw [hmax]
  have hcast : ((n : ℚ) - 1) ≠ 0 := by
    have h1 : (1 : ℚ) ≤ (n : ℚ) := by exact_mod_cast hn.trans' (by norm_num)
    have h2 : (2 : ℚ) ≤ (n : ℚ) := by exact_mod_cast hn
    intro hc
    nlinarith
  rw [Nat.cast_sub (by omega : 1 ≤ n)]
  push_cast
  field_simp

/-- C2: for the compiled step expression `x<0?-1:1` sampled on an evenly
spaced grid over a domain straddling zero, `drawCurve` produces at least two
disjoint polyline segments and no single segment contains both a sample with
`x < 0` and a sample with `x > 0`; a segment ends exactly when the jump
between consecutive finite samples exceeds both the absolute and the relative
threshold (definition `isJump`). -/
theorem drawCurve_step_segments (xMin xMax : ℚ) (n : ℕ)
    (h1 : xMin < 0) (h2 : 0 < xMax) (hn : 2 ≤ n) :
    2 ≤ (drawCurveSegments stepFun xMin xMax n).length ∧
    ∀ s ∈ drawCurveSegments stepFun xMin xMax n,
      ¬ ((∃ p ∈ s, p.1 < 0) ∧ ∃ p ∈ s, 0 < p.1) := by
  have hinit : CInv ⟨[], [], false, none⟩ := by
    refine ⟨fun s hs => absurd hs (List.not_mem_nil s),
      ⟨fun p hp => absurd hp (List.not_mem_nil p),
       fun p hp => absurd hp (List.not_mem_nil p)⟩,
      fun hc => by simp at hc, fun _ => rfl⟩
  have hinv : CInv ((linspace xMin xMax n).foldl (curveStep stepFun) ⟨[], [], false, none⟩) :=
    foldl_curveStep_inv _ _ hinit
  have hout : drawCurveSegments stepFun xMin xMax n =
      closeSeg ((linspace xMin xMax n).foldl (curveStep stepFun) ⟨[], [], false, none⟩).segs
        ((linspace xMin xMax n).foldl (curveStep stepFun) ⟨[], [], false, none⟩).cur := rfl
  have hOK : ∀ s ∈ drawCurveSegments stepFun xMin xMax n, SegOK s := by
    intro s hs
    rw [hout] at hs
    rcases mem_closeSeg hs with hmem | hmem
    · exact hinv.1 s hmem
    · rw [hmem]; exact hinv.2.1
  have hmem : ∀ x ∈ linspace xMin xMax n,
      (x, stepVal x) ∈ (drawCurveSegments stepFun xMin xMax n).flatten := by
    intro x hx
    rw [hout, flatten_closeSeg]
    exact (foldl_curveStep_mem stepFun _ _ (fun _ => rfl)).2 x hx (stepVal x) rfl
  obtain ⟨s1, hs1mem, hs1⟩ :=
    List.mem_flatten.mp (hmem xMin (linspace_head xMin xMax n (by omega)))
  obtain ⟨s2, hs2mem, hs2⟩ :=
    List.mem_flatten.mp (hmem xMax (linspace_last xMin xMax n hn))
  have hv1 : stepVal xMin = -1 := by unfold stepVal; rw [if_pos h1]
  have hv2 : stepVal xMax = 1 := by unfold stepVal; rw [if_neg (by linarith)]
  constructor
  · apply two_mem_le_length hs1mem hs2mem
    intro heq
    have hc := (hOK s1 hs1mem).2 _ hs1 _ (heq ▸ hs2)
    simp only at hc
    rw [hv1, hv2] at hc
    norm_num at hc
  · rintro s hs ⟨⟨p, hp, hpneg⟩, ⟨q, hq, hqpos⟩⟩
    have e1 := (hOK s hs).1 p hp
    have e2 := (hOK s hs).1 q hq
    have e3 := (hOK s hs).2 p hp q hq
    rw [e1, e2] at e3
    unfold stepVal at e3
    rw [if_pos hpneg, if_neg (by linarith)] at e3
    norm_num at e3

/-- C2 witness: domain `[-1, 1]`, five samples. -/
theorem drawCurve_step_segments_witness :
    ((-1 : ℚ) < 0 ∧ (0 : ℚ) < 1 ∧ 2 ≤ 5) ∧
    (2 ≤ (drawCurveSegments stepFun (-1) 1 5).length ∧
    ∀ s ∈ drawCurveSegments stepFun (-1) 1 5,
      ¬ ((∃ p ∈ s, p.1 < 0) ∧ ∃ p ∈ s, 0 < p.1)) :=
  ⟨⟨by norm_num, by norm_num, by norm_num⟩,
   drawCurve_step_segments (-1) 1 5 (by norm_num) (by norm_num) (by norm_num)⟩

/-! ### Hole markers for abs(x) and claim C3 -/

theorem holeAt_eval (f df : ℚ → Option ℚ) (h x y0 ym yp m : ℚ)
    (hf0 : f x = some y0) (hfm : f (x - h) = some ym) (hfp : f (x + h) = some yp)
    (hdf : df x = some m)
    (hnj : ¬ (CONT_ABS < |yp - ym| ∧
        CONT_REL < |yp - ym| / Max.max (1 / 1000000000) (Max.max |yp| |ym|)))
    (hc : SLOPE_ABS < |(y0 - ym) / h - (yp - y0) / h| ∧
        SLOPE_REL < |(y0 - ym) / h - (yp - y0) / h| /
          Max.max (1 / 1000000000) (Max.max |(y0 - ym) / h| |(yp - y0) / h|)) :
    holeAt f df h x = [(x, (y0 - ym) / h), (x, (yp - y0) / h)] := by
  simp only [holeAt, hdf, hfm, hfp, hf0]
  rw [if_neg hnj, if_pos hc]

theorem holeAt_abs_pos (h d : ℚ) (hd : 0 < d) (hd20 : d ≤ h / 20)
    (hbig : 1 / 1000000 ≤ h) :
    holeAt absQ dfAbs h d = [(d, 2 * d / h - 1), (d, 1)] := by
  have hpos : 0 < h := lt_of_lt_of_le (by norm_num) hbig
  have hdh : d < h := by nlinarith
  have hf0 : absQ d = some d := by rw [absQ, abs_of_pos hd]
  have hfm : absQ (d - h) = some (h - d) := by
    rw [absQ, abs_of_neg (by linarith : d - h < 0)]
    congr 1
    ring
  have hfp : absQ (d + h) = some (d + h) := by
    rw [absQ, abs_of_pos (by linarith : (0 : ℚ) < d + h)]
  have hdf : dfAbs d = some 1 := by
    rw [dfAbs, if_neg (ne_of_gt hd), if_neg (not_lt.mpr hd.le)]
  have e1 : (d - (h - d)) / h = 2 * d / h - 1 := by
    field_simp
    ring
  have e2 : ((d + h) - d) / h = 1 := by
    field_simp
  have hq : 2 * d / h ≤ 1 / 10 := by
    rw [div_le_iff₀ hpos]
    nlinarith
  have hq0 : 0 < 2 * d / h := by positivity
  have hnj : ¬ (CONT_ABS < |d + h - (h - d)| ∧
      CONT_REL < |d + h - (h - d)| / Max.max (1 / 1000000000) (Max.max |d + h| |h - d|)) := by
    rintro ⟨-, hrel⟩
    rw [show d + h - (h - d) = 2 * d by ring] at hrel
    rw [abs_of_pos (by linarith : (0 : ℚ) < 2 * d)] at hrel
    rw [abs_of_pos (by linarith : (0 : ℚ) < d + h),
        abs_of_pos (by linarith : (0 : ℚ) < h - d)] at hrel
    rw [max_eq_left (by linarith : h - d ≤ d + h)] at hrel
    rw [max_eq_right (by linarith : (1 : ℚ) / 1000000000 ≤ d + h)] at hrel
    simp only [CONT_REL] at hrel
    rw [lt_div_iff (by linarith : (0 : ℚ) < d + h)] at hrel
    nlinarith
  have hc : SLOPE_ABS < |(d - (h - d)) / h - ((d + h) - d) / h| ∧
      SLOPE_REL < |(d - (h - d)) / h - ((d + h) - d) / h| /
        Max.max (1 / 1000000000) (Max.max |(d - (h - d)) / h| |((d + h) - d) / h|) := by
    rw [e1, e2]
    have habs : |2 * d / h - 1 - 1| = 2 - 2 * d / h := by
      rw [abs_of_neg (by linarith : 2 * d / h - 1 - 1 < 0)]
      ring
    have habsl : |2 * d / h - 1| = 1 - 2 * d / h := by
      rw [abs_of_neg (by linarith : 2 * d / h - 1 < 0)]
      ring
    rw [habs, habsl, abs_one]
    rw [max_eq_right (by linarith : 1 - 2 * d / h ≤ (1 : ℚ))]
    rw [max_eq_right (by norm_num : (1 : ℚ) / 1000000000 ≤ 1)]
    rw [div_one]
    constructor
    · simp only [SLOPE_ABS]
      linarith
    · simp only [SLOPE_REL]
      linarith
  have heval := holeAt_eval absQ dfAbs h d d (h - d) (d + h) 1 hf0 hfm hfp hdf hnj hc
  rw [heval, e1, e2]

theorem holeAt_abs_neg (h d : ℚ) (hd : d < 0) (hd20 : -d ≤ h / 20)
    (hbig : 1 / 1000000 ≤ h) :
    holeAt absQ dfAbs h d = [(d, -1), (d, 2 * d / h + 1)] := by
  have hpos : 0 < h := lt_of_lt_of_le (by norm_num) hbig
  have hdh : -d < h := by nlinarith
  have hf0 : absQ d = some (-d) := by rw [absQ, abs_of_neg hd]
  have hfm : absQ (d - h) = some (h - d) := by
    rw [absQ, abs_of_neg (by linarith : d - h < 0)]
    congr 1
    ring
  have hfp : absQ (d + h) = some (d + h) := by
    rw [absQ, abs_of_pos (by linarith : (0 : ℚ) < d + h)]
  have hdf : dfAbs d = some (-1) := by
    rw [dfAbs, if_neg (ne_of_lt hd), if_pos hd]
  have e1 : (-d - (h - d)) / h = -1 := by
    field_simp
    ring
  have e2 : ((d + h) - -d) / h = 2 * d / h + 1 := by
    field_simp
    ring
  have hq : -(1 / 10 : ℚ) ≤ 2 * d / h := by
    rw [le_div_iff₀ hpos]
    nlinarith
  have hq0 : 2 * d / h < 0 := div_neg_of_neg_of_pos (by linarith) hpos
  have hnj : ¬ (CONT_ABS < |d + h - (h - d)| ∧
      CONT_REL < |d + h - (h - d)| / Max.max (1 / 1000000000) (Max.max |d + h| |h - d|)) := by
    rintro ⟨-, hrel⟩
    rw [show d + h - (h - d) = 2 * d by ring] at hrel
    rw [abs_of_neg (by linarith : 2 * d < 0)] at hrel
    rw [abs_of_pos (by linarith : (0 : ℚ) < d + h),
        abs_of_pos (by linarith : (0 : ℚ) < h - d)] at hrel
    rw [max_eq_right (by linarith : d + h ≤ h - d)] at hrel
    rw [max_eq_right (by linarith : (1 : ℚ) / 1000000000 ≤ h - d)] at hrel
    simp only [CONT_REL] at hrel
    rw [lt_div_iff (by linarith : (0 : ℚ) < h - d)] at hrel
    nlinarith
  have hc : SLOPE_ABS < |(-d - (h - d)) / h - ((d + h) - -d) / h| ∧
      SLOPE_REL < |(-d - (h - d)) / h - ((d + h) - -d) / h| /
        Max.max (1 / 1000000000) (Max.max |(-d - (h - d)) / h| |((d + h) - -d) / h|) := by
    rw [e1, e2]
    have habs : |(-1 : ℚ) - (2 * d / h + 1)| = 2 + 2 * d / h := by
      rw [abs_of_neg (by linarith : (-1 : ℚ) - (2 * d / h + 1) < 0)]
      ring
    have habsr : |2 * d / h + 1| = 2 * d / h + 1 := by
      rw [abs_of_pos (by linarith : (0 : ℚ) < 2 * d / h + 1)]
    have habsn : |(-1 : ℚ)| = 1 := by norm_num
    rw [habs, habsr, habsn]
    rw [max_eq_left (by linarith : 2 * d / h + 1 ≤ (1 : ℚ))]
    rw [max_eq_right (by norm_num : (1 : ℚ) / 1000000000 ≤ 1)]
    rw [div_one]
    constructor
    · simp only [SLOPE_ABS]
      linarith
    · simp only [SLOPE_REL]
      linarith
  have heval := holeAt_eval absQ dfAbs h d (-d) (h - d) (d + h) (-1) hf0 hfm hfp hdf hnj hc
  rw [heval, e1, e2]

theorem drawTangent_abs_zero (xMin xMax : ℚ) (h1 : xMin ≤ 0) (h2 : 0 ≤ xMax) :
    drawTangentAt true absQ dfAbs xMin xMax (some 0) = none := by
  have hcl : clampQ 0 xMin xMax = 0 := by
    rw [clampQ, min_eq_right h2, max_eq_right h1]
  simp [drawTangentAt, hcl, dfAbs, absQ]

/-- C3 counterexample: for `abs(x)` over the straddling domain `[-10, 10]`
with a 5-point grid, `drawDerivativeWithHoles` emits NO hole markers at all:
at the sample `x = 0` the symbolic `df(0)` is NaN (segment break, no corner
check), and at `x = ±5` the continuity test fires (`|f(x+h)-f(x-h)| = 5`
exceeds both thresholds) — so no corner is detected at or near zero,
contradicting the claimed pair of markers `≈ -1` and `≈ +1`. -/
theorem holeMarkers_abs_counterexample :
    ((-10 : ℚ) < 0 ∧ (0 : ℚ) < 10) ∧ holeMarkers absQ dfAbs (-10) 10 5 = [] := by
  refine ⟨⟨by norm_num, by norm_num⟩, ?_⟩
  have h1 : holeAt absQ dfAbs (5 / 2) (-5) = [] := by
    norm_num [holeAt, absQ, dfAbs, CONT_ABS, CONT_REL, SLOPE_ABS, SLOPE_REL, max_def,
      abs_of_pos, abs_of_neg, abs_of_nonneg]
  have h2 : holeAt absQ dfAbs (5 / 2) 0 = [] := by
    norm_num [holeAt, dfAbs]
  have h3 : holeAt absQ dfAbs (5 / 2) 5 = [] := by
    norm_num [holeAt, absQ, dfAbs, CONT_ABS, CONT_REL, SLOPE_ABS, SLOPE_REL, max_def,
      abs_of_pos, abs_of_neg, abs_of_nonneg]
  simp only [holeMarkers]
  rw [show List.range' 1 (Min.min 5 500 - 2) = [1, 2, 3] from rfl]
  simp only [List.flatMap_cons, List.flatMap_nil, List.append_nil]
  have hh : Max.max (1 / 1000000 : ℚ) ((10 - -10) / (((Min.min 5 500 : ℕ) : ℚ) - 1) / 2) =
      5 / 2 := by
    rw [show ((Min.min 5 500 : ℕ) : ℚ) = 5 by norm_num]
    norm_num [max_def]
  have hstep : ((10 : ℚ) - -10) / ((Max.max 1 (Min.min 5 500 - 1) : ℕ) : ℚ) = 5 := by
    rw [show ((Max.max 1 (Min.min 5 500 - 1) : ℕ) : ℚ) = 4 by norm_num]
    norm_num
  rw [hh, hstep]
  rw [show (-10 : ℚ) + ((1 : ℕ) : ℚ) * 5 = -5 by push_cast; ring,
      show (-10 : ℚ) + ((2 : ℕ) : ℚ) * 5 = 0 by push_cast; ring,
      show (-10 : ℚ) + ((3 : ℕ) : ℚ) * 5 = 5 by push_cast; ring]
  rw [h1, h2, h3]
  rfl

/-- C3 amended: for `abs(x)`, a corner is detected — with the two hole markers
at the one-sided difference quotients, one within `[-1, -0.9]` and one within
`[0.9, 1]` — at an interior sample `d` that is close to but distinct from zero
(`0 < |d| ≤ h/20`, `h` the half-step); when the anchor is exactly 0 no tangent
is drawn because the symbolic `df(0)` is NaN.  (When 0 is itself a sample,
`df(0) = NaN` suppresses the corner branch and no markers appear — see the
counterexample — so the near-zero-sample hypothesis is necessary.) -/
theorem holeMarkers_abs (xMin xMax : ℚ) (n : ℕ) (i : ℕ) (d h : ℚ)
    (hxm : xMin ≤ 0) (hxM : 0 ≤ xMax)
    (hi1 : 1 ≤ i) (hi2 : i ≤ Min.min n 500 - 2)
    (hd : d = xMin + (i : ℚ) * ((xMax - xMin) / ((Max.max 1 (Min.min n 500 - 1) : ℕ) : ℚ)))
    (hh : h = Max.max (1 / 1000000) ((xMax - xMin) / (((Min.min n 500 : ℕ) : ℚ) - 1) / 2))
    (hd0 : d ≠ 0) (hdh : |d| ≤ h / 20) :
    (∃ l r : ℚ, (d, l) ∈ holeMarkers absQ dfAbs xMin xMax n ∧
        (d, r) ∈ holeMarkers absQ dfAbs xMin xMax n ∧
        -1 ≤ l ∧ l ≤ -(9 / 10) ∧ 9 / 10 ≤ r ∧ r ≤ 1) ∧
    drawTangentAt true absQ dfAbs xMin xMax (some 0) = none := by
  have hbig : (1 : ℚ) / 1000000 ≤ h := hh ▸ le_max_left _ _
  have hpos : (0 : ℚ) < h := lt_of_lt_of_le (by norm_num) hbig
  have hmem : ∀ p ∈ holeAt absQ dfAbs h d, p ∈ holeMarkers absQ dfAbs xMin xMax n := by
    intro p hp
    simp only [holeMarkers]
    refine List.mem_flatMap.mpr ⟨i, ?_, ?_⟩
    · refine List.mem_range'_1.mpr ⟨hi1, ?_⟩
      omega
    · rw [← hd, ← hh]
      exact hp
  refine ⟨?_, drawTangent_abs_zero xMin xMax hxm hxM⟩
  rcases lt_or_gt_of_ne hd0 with hneg | hposd
  · have habs : -d ≤ h / 20 := by rwa [abs_of_neg hneg] at hdh
    have he := holeAt_abs_neg h d hneg habs hbig
    refine ⟨-1, 2 * d / h + 1, ?_, ?_, by norm_num, by norm_num, ?_, ?_⟩
    · exact hmem _ (by rw [he]; exact List.mem_cons_self _ _)
    · exact hmem _ (by rw [he]; exact List.mem_cons_of_mem _ (List.mem_cons_self _ _))
    · have hq : -(1 / 10 : ℚ) ≤ 2 * d / h := by
        rw [le_div_iff₀ hpos]
        nlinarith
      linarith
    · have hq0 : 2 * d / h < 0 := div_neg_of_neg_of_pos (by linarith) hpos
      linarith
  · have habs : d ≤ h / 20 := by rwa [abs_of_pos hposd] at hdh
    have he := holeAt_abs_pos h d hposd habs hbig
    refine ⟨2 * d / h - 1, 1, ?_, ?_, ?_, ?_, by norm_num, by norm_num⟩
    · exact hmem _ (by rw [he]; exact List.mem_cons_self _ _)
    · exact hmem _ (by rw [he]; exact List.mem_cons_of_mem _ (List.mem_cons_self _ _))
    · have hq0 : 0 < 2 * d / h := by positivity
      linarith
    · have hq : 2 * d / h ≤ 1 / 10 := by
        rw [div_le_iff₀ hpos]
        nlinarith
      linarith

/-- C3 amended witness: domain `[-1, 1.05]`, 3 samples; the interior sample is
`d = 1/40`, within `h/20` of the corner. -/
theorem holeMarkers_abs_witness :
    (∃ l r : ℚ, ((1 : ℚ) / 40, l) ∈ holeMarkers absQ dfAbs (-1) (21 / 20) 3 ∧
        ((1 : ℚ) / 40, r) ∈ holeMarkers absQ dfAbs (-1) (21 / 20) 3 ∧
        -1 ≤ l ∧ l ≤ -(9 / 10) ∧ 9 / 10 ≤ r ∧ r ≤ 1) ∧
    drawTangentAt true absQ dfAbs (-1) (21 / 20) (some 0) = none :=
  holeMarkers_abs (-1) (21 / 20) 3 1 (1 / 40) (41 / 80)
    (by norm_num) (by norm_num) (by norm_num) (by decide)
    (by rw [show ((Max.max 1 (Min.min 3 500 - 1) : ℕ) : ℚ) = 2 by norm_num]
        push_cast
        norm_num)
    (by rw [show ((Min.min 3 500 : ℕ) : ℚ) = 3 by norm_num]
        norm_num [max_def])
    (by norm_num) (by rw [show |(1 : ℚ) / 40| = 1 / 40 from abs_of_pos (by norm_num)]; norm_num)

end Turev
